import Mathlib

/-!
Verification development for SuperReader.py: a shallow embedding of the
speaker-attribution pipeline and the audio post-processing pipeline of the
repository, together with theorems settling the specification's claims.

Text is modelled as `List Char` (Python `str`).  The external collaborators
(spaCy NLP annotator, TTS engine, name-gender dataset, filesystem) are
abstracted exactly as the specification prescribes: the per-line annotation
result is a parameter, TTS output waveforms are parameters, and the audio
directory is a list of (filename, duration) pairs.
-/

set_option maxHeartbeats 1000000

/-- Text string, modelled as a list of characters. -/
abbrev Str := List Char

/-- Whitespace characters removed by Python `str.strip` on ASCII text. -/
def pySpace (c : Char) : Bool :=
  c = ' ' || c = '\t' || c = '\n' || c = '\r' || c = '\x0b' || c = '\x0c'

/-- Characters matched by the regex class backslash-w on ASCII text:
letters, digits and the underscore. -/
def wordChar (c : Char) : Bool := c.isAlphanum || c = '_'

/-- Model of Python `str.strip`: drop leading and trailing whitespace. -/
def pyStrip (l : Str) : Str := ((l.dropWhile pySpace).reverse.dropWhile pySpace).reverse

/-- Embedding of `clean_text` (SuperReader.py line 94): the substitution
`re.sub` of `[^\x00-\x7F]+` by the empty string keeps exactly the characters
with code point at most 0x7F. -/
def clean_text (l : Str) : Str := l.filter (fun c => c.toNat ≤ 0x7F)

/-- One segment produced by the segmenter: a narration/dialogue flag
(`isDialogue`) together with the stripped text. -/
structure Seg where
  isDialogue : Bool
  text : Str
deriving DecidableEq

/-- State machine equivalent to `re.findall` of the segmenter pattern
(a run of non-quote characters, optionally followed by a quoted run) used by
`split_narration_dialogue` (SuperReader.py line 82): characters accumulate in
`acc`; at each double quote the accumulated run is emitted — flagged as
dialogue exactly when the run was inside an open quote pair — and the mode
toggles; at end of input the pending run is emitted as narration, so the
content after an unmatched opening quote is treated as narration and the
unmatched quote character itself is dropped (it is consumed by the empty
regex match that skips it). -/
def scanSeg (inDlg : Bool) (acc : Str) : Str → List (Bool × Str)
  | [] => [(false, acc.reverse)]
  | c :: rest =>
    if c = '"' then (inDlg, acc.reverse) :: scanSeg (!inDlg) [] rest
    else scanSeg inDlg (c :: acc) rest

/-- Embedding of `split_narration_dialogue` (SuperReader.py lines 81-90):
each raw run is stripped, whitespace-only runs are dropped, and the rest are
tagged narration or dialogue in original left-to-right order. -/
def split_narration_dialogue (line : Str) : List Seg :=
  (scanSeg false [] line).filterMap fun s =>
    if pyStrip s.2 = [] then none else some ⟨s.1, pyStrip s.2⟩

/-- The six alternatives of the attribution regex of `detect_attribution`
(SuperReader.py line 147), in pattern order. -/
def attributionVerbs : List Str :=
  ["said".data, "asked".data, "replied".data, "shouted".data,
   "whispered".data, "added".data]

/-- Attempt one alternative of the attribution regex at the current position:
the verb, a single space, then a maximal non-empty run of word characters
(the capture group 2 of the pattern). -/
def tryVerb (cs : Str) (v : Str) : Option Str :=
  if v.isPrefixOf cs then
    match cs.drop v.length with
    | ' ' :: rest =>
      let tok := rest.takeWhile wordChar
      if tok = [] then none else some tok
    | _ => none
  else none

/-- Attempt the whole alternation at the current position, in pattern order. -/
def matchVerbHere (cs : Str) : Option Str := attributionVerbs.findSome? (tryVerb cs)

/-- Leftmost-match search of the attribution regex: `prevWord` records
whether the previous character is a word character, so that the leading
word-boundary of the pattern holds exactly when `prevWord` is false (the
verbs begin with a word character). -/
def searchAttr (prevWord : Bool) : Str → Option Str
  | [] => none
  | c :: rest =>
    match (if prevWord then none else matchVerbHere (c :: rest)) with
    | some tok => some tok
    | none => searchAttr (wordChar c) rest

/-- Embedding of `detect_attribution` (SuperReader.py lines 146-151):
`re.search` of the pattern over the text, returning capture group 2 of the
leftmost match. -/
def detect_attribution (text : Str) : Option Str := searchAttr false text

/-- One speaker record of `SpeakerManager.speakers` (SuperReader.py
lines 38-40 and 51-56).  Python floats are rational values; `pitch_factor`
is therefore modelled in `ℚ`. -/
structure Speaker where
  name : Str
  gender : Str
  number : Str
  pitch_factor : ℚ
deriving DecidableEq

/-- One entry of `SpeakerManager.superbook`: the script entry structure. -/
structure Entry where
  speaker : Str
  text : Str
deriving DecidableEq

/-- The `SpeakerManager` state: speaker registry plus ordered script. -/
structure SpeakerManager where
  speakers : List Speaker
  superbook : List Entry
deriving DecidableEq

/-- Embedding of `SpeakerManager.__init__` (SuperReader.py lines 37-42). -/
def initManager : SpeakerManager :=
  { speakers := [⟨"Narrator".data, "unknown".data, "singular".data, 1⟩],
    superbook := [] }

/-- Embedding of `SpeakerManager.get_speaker` (SuperReader.py lines 59-60):
first record with the given name, if any. -/
def get_speaker (sm : SpeakerManager) (name : Str) : Option Speaker :=
  sm.speakers.find? (fun s => s.name = name)

/-- Gender upgrade performed on an existing record by `add_speaker`
(SuperReader.py lines 48-49): only an unknown gender is overwritten, and
only by a non-unknown one. -/
def upgradeGender (gender : Str) (s : Speaker) : Speaker :=
  if s.gender = "unknown".data ∧ gender ≠ "unknown".data then
    { s with gender := gender }
  else s

/-- Apply the gender upgrade to the first record with the given name
(the record aliased by `existing` in the Python code). -/
def updateFirst (name gender : Str) : List Speaker → List Speaker
  | [] => []
  | s :: rest =>
    if s.name = name then upgradeGender gender s :: rest
    else s :: updateFirst name gender rest

/-- Embedding of `SpeakerManager.add_speaker` (SuperReader.py lines 45-56).
The value of `random.uniform(*PITCH_FACTOR_RANGE)` is passed in as `draw`;
it is consumed only when a new record is inserted, exactly as in the code. -/
def add_speaker (sm : SpeakerManager) (name gender number : Str) (draw : ℚ) :
    SpeakerManager :=
  if (get_speaker sm name).isSome then
    { sm with speakers := updateFirst name gender sm.speakers }
  else
    { sm with speakers := sm.speakers ++ [⟨name, gender, number, draw⟩] }

/-- Append one script entry to the superbook (the Python
`speaker_manager.superbook.append`). -/
def appendEntry (sm : SpeakerManager) (e : Entry) : SpeakerManager :=
  { sm with superbook := sm.superbook ++ [e] }

/-- Per-line result of the external NLP annotator: the value
`get_named_speaker(nlp(line))` and the value
`infer_gender_from_pronouns(nlp(line))` for the cleaned line.  The spaCy
model is an external collaborator, so these are parameters of the embedding. -/
structure Annot where
  namedSpeaker : Option Str
  pronounGender : Str

/-- Embedding of the per-part body of the loop of `process_text_lines`
(SuperReader.py lines 167-190).  The state carries the manager together with
`last_quoted_speaker`.  Dialogue with a named speaker registers the speaker
and updates the context; ambiguous dialogue falls back to the context or the
literal string "Unnamed Speaker 1" without registering anything; narration
with a detected attribution registers the detected token and updates the
context; narration is always recorded under "Narrator". -/
def processPart (rng : ℕ → ℚ) (named : Option Str) (gender : Str)
    (st : SpeakerManager × Option Str) (part : Seg) :
    SpeakerManager × Option Str :=
  if part.isDialogue then
    match named with
    | some n =>
      (appendEntry (add_speaker st.1 n gender "singular".data
        (rng st.1.speakers.length)) ⟨n, part.text⟩, some n)
    | none =>
      (appendEntry st.1 ⟨st.2.getD "Unnamed Speaker 1".data, part.text⟩, st.2)
  else
    match detect_attribution part.text with
    | some tok =>
      (appendEntry (add_speaker st.1 tok "unknown".data "singular".data
        (rng st.1.speakers.length)) ⟨"Narrator".data, part.text⟩, some tok)
    | none => (appendEntry st.1 ⟨"Narrator".data, part.text⟩, st.2)

/-- Embedding of the per-line body of `process_text_lines` (SuperReader.py
lines 158-190): clean the line, query the annotator on the cleaned line,
compute the line gender (only when a named speaker was found), split the
line and fold the parts. -/
def processLine (annot : Str → Annot) (rng : ℕ → ℚ)
    (st : SpeakerManager × Option Str) (line : Str) :
    SpeakerManager × Option Str :=
  let cl := clean_text line
  let a := annot cl
  let gender := if (a.namedSpeaker).isSome then a.pronounGender
                else "unknown".data
  (split_narration_dialogue cl).foldl (processPart rng a.namedSpeaker gender) st

/-- Embedding of `process_text_lines` (SuperReader.py lines 155-190), run as
`main` runs it: on a fresh `SpeakerManager` with an empty context. -/
def process_text_lines (lines : List Str) (annot : Str → Annot)
    (rng : ℕ → ℚ) : SpeakerManager × Option Str :=
  lines.foldl (processLine annot rng) (initManager, none)

/-- Constant `MIN_AUDIO_DURATION` (SuperReader.py line 29), in seconds. -/
def MIN_AUDIO_DURATION : ℚ := 1/2

/-- Constant `DELAY_BETWEEN_LINES_MS` (SuperReader.py line 30). -/
def DELAY_BETWEEN_LINES_MS : ℕ := 300

/-- Observable effect of one entry's audio post-processing: either the raw
TTS waveform is written back unchanged at its original sample rate
(`sf.write(output_audio_path, y, sr)`), or `apply_pitch_shift_librosa` is
invoked on it with the speaker's pitch factor (resample to `sr * factor`,
time-stretch back to the original duration, write at `sr`).  Samples are
modelled as rationals (Python floats are rationals). -/
inductive AudioWrite where
  | passthrough (y : List ℚ) (sr : ℕ)
  | shifted (y : List ℚ) (sr : ℕ) (factor : ℚ)
deriving DecidableEq

/-- Value of `librosa.get_duration(y=y, sr=sr)`: sample count over rate. -/
def audioDuration (y : List ℚ) (sr : ℕ) : ℚ := (y.length : ℚ) / (sr : ℚ)

/-- Pitch stage of the sequential path (SuperReader.py lines 252-261): a
waveform below the minimum duration is written through unmodified, otherwise
`apply_pitch_shift_librosa` runs with the speaker's pitch factor. -/
def pitch_stage_single (y : List ℚ) (sr : ℕ) (factor : ℚ) : AudioWrite :=
  if audioDuration y sr < MIN_AUDIO_DURATION then .passthrough y sr
  else .shifted y sr factor

/-- Pitch stage of the concurrent path (`process_entry`, SuperReader.py
lines 198-223): `apply_pitch_shift_librosa` runs unconditionally — the
duration check of the sequential path is absent here. -/
def pitch_stage_multi (y : List ℚ) (sr : ℕ) (factor : ℚ) : AudioWrite :=
  .shifted y sr factor

/-- Fuel-driven decimal rendering; with fuel above `n` this is Python
`str(n)`. -/
def pyStrAux : ℕ → ℕ → Str
  | 0, _ => []
  | fuel+1, n =>
    if n < 10 then [Nat.digitChar n]
    else pyStrAux fuel (n / 10) ++ [Nat.digitChar (n % 10)]

/-- Model of Python `str(n)` for a natural number: decimal digits. -/
def pyStr (n : ℕ) : Str := pyStrAux (n + 1) n

/-- Model of Python `str.zfill(w)` on a digit string: pad with leading
zeros to width `w`. -/
def zfill (w : ℕ) (s : Str) : Str := List.replicate (w - s.length) '0' ++ s

/-- Output filename of one script entry (without the common "audio/"
directory prefix): the 1-based enumeration index zero-padded to width `w`,
an underscore, the speaker name and the ".wav" extension. -/
def fname (w idx : ℕ) (speaker : Str) : Str :=
  zfill w (pyStr idx) ++ '_' :: (speaker ++ ".wav".data)

/-- Filenames written by `generate_audio_with_librosa_single_thread`
(SuperReader.py lines 232-268): entries are enumerated from 1, entries whose
speaker is missing from the registry are skipped, and the index is padded to
the width of the decimal rendering of the total entry count. -/
def generate_audio_with_librosa_single_thread (sm : SpeakerManager) : List Str :=
  let nd := (pyStr sm.superbook.length).length
  sm.superbook.enum.filterMap fun p =>
    if (get_speaker sm p.2.speaker).isSome then some (fname nd (p.1 + 1) p.2.speaker)
    else none

/-- Filenames written by `generate_audio_with_librosa_multithreading`
(SuperReader.py lines 197-228), listed in submission order: entries are
enumerated from 1, entries whose speaker is missing from the registry are
skipped, and the index is padded to the fixed width 2 (`zfill(2)`). -/
def generate_audio_with_librosa_multithreading (sm : SpeakerManager) : List Str :=
  sm.superbook.enum.filterMap fun p =>
    if (get_speaker sm p.2.speaker).isSome then some (fname 2 (p.1 + 1) p.2.speaker)
    else none

/-- Python string comparison (used by `sorted`): strict lexicographic order
on code points. -/
def lexLt : Str → Str → Bool
  | [], [] => false
  | [], _ :: _ => true
  | _ :: _, [] => false
  | a :: as, b :: bs =>
    if a < b then true else if a = b then lexLt as bs else false

/-- Insertion step of a stable sort by filename. -/
def insertSorted (x : Str × ℕ) : List (Str × ℕ) → List (Str × ℕ)
  | [] => [x]
  | y :: rest => if lexLt x.1 y.1 then x :: y :: rest else y :: insertSorted x rest

/-- Model of Python `sorted` over a directory listing of
(filename, duration) pairs. -/
def pySorted : List (Str × ℕ) → List (Str × ℕ)
  | [] => []
  | x :: rest => insertSorted x (pySorted rest)

/-- Embedding of `combine_audio_files` (SuperReader.py lines 309-317),
observed through the total duration (in milliseconds) of the combined
segment: the directory listing is sorted, non-".wav" names are ignored, and
each remaining file contributes its duration followed by the fixed silence
gap — including after the final file. -/
def combine_audio_files (files : List (Str × ℕ)) : ℕ :=
  ((pySorted files).filter (fun f => ".wav".data.isSuffixOf f.1)).foldl
    (fun acc f => acc + f.2 + DELAY_BETWEEN_LINES_MS) 0

/-- One registry mutation: a call of `add_speaker` with its arguments and
the value drawn by `random.uniform` (consumed only on insertion).
`get_speaker` is read-only, so an arbitrary interleaving of `get_speaker`
calls is captured by the same operation list. -/
structure AddOp where
  name : Str
  gender : Str
  number : Str
  draw : ℚ

/-- Run a sequence of registry operations. -/
def runOps (sm : SpeakerManager) (ops : List AddOp) : SpeakerManager :=
  ops.foldl (fun m o => add_speaker m o.name o.gender o.number o.draw) sm

/-- Constant `PITCH_FACTOR_RANGE` (SuperReader.py line 28). -/
def PITCH_FACTOR_RANGE : ℚ × ℚ := (0.8, 1.3)

/-- Concrete operation used by the witness below. -/
def opMeg : AddOp := ⟨"Meg".data, "unknown".data, "singular".data, 1⟩

/-- Non-whitespace characters (complement of the strip set). -/
def nonWs (c : Char) : Bool := !pySpace c

/-- Trivial annotator used by concrete runs: no named speaker found. -/
def annotNone : Str → Annot := fun _ => ⟨none, "unknown".data⟩

/-- Constant draw supply used by concrete runs. -/
def rngOne : ℕ → ℚ := fun _ => 1

/-- Fixed-width big-endian decimal representation. -/
def fixedRep : ℕ → ℕ → Str
  | 0, _ => []
  | w+1, n => fixedRep w (n / 10) ++ [Nat.digitChar (n % 10)]

/-- Concrete one-entry script for the counterexample. -/
def smOne : SpeakerManager :=
  { speakers := [⟨"Narrator".data, "unknown".data, "singular".data, 1⟩],
    superbook := [⟨"Narrator".data, "hi".data⟩] }

/-- Concrete two-entry script for the witness. -/
def smTwo : SpeakerManager :=
  { speakers := [⟨"Narrator".data, "unknown".data, "singular".data, 1⟩],
    superbook := [⟨"Narrator".data, "hi".data⟩, ⟨"Narrator".data, "yo".data⟩] }

/-! Registry lemmas: `add_speaker` never changes the name or the
pitch factor of an existing record, and an inserted record carries the
drawn pitch factor. -/

/-- The gender upgrade does not change the speaker's name. -/
theorem upgradeGender_name (g : Str) (s : Speaker) :
    (upgradeGender g s).name = s.name := by
  unfold upgradeGender; split <;> rfl

/-- The gender upgrade does not change the pitch factor. -/
theorem upgradeGender_pitch (g : Str) (s : Speaker) :
    (upgradeGender g s).pitch_factor = s.pitch_factor := by
  unfold upgradeGender; split <;> rfl

/-- The gender upgrade does not change the grammatical number. -/
theorem upgradeGender_number (g : Str) (s : Speaker) :
    (upgradeGender g s).number = s.number := by
  unfold upgradeGender; split <;> rfl

/-- Lookup through `updateFirst` finds a record with the same name and
pitch factor as the lookup in the original list. -/
theorem updateFirst_find?_pitch (nm g q : Str) (l : List Speaker) :
    ((updateFirst nm g l).find? (fun s => s.name = q)).map Speaker.pitch_factor =
      (l.find? (fun s => s.name = q)).map Speaker.pitch_factor := by
  induction l with
  | nil => rfl
  | cons s rest ih =>
    unfold updateFirst
    by_cases h1 : s.name = nm
    · rw [if_pos h1]
      by_cases h2 : s.name = q
      · rw [List.find?_cons_of_pos _ (by simp [upgradeGender_name, h2]),
          List.find?_cons_of_pos _ (by simp [h2])]
        simp [upgradeGender_pitch]
      · rw [List.find?_cons_of_neg _ (by simp [upgradeGender_name, h2]),
          List.find?_cons_of_neg _ (by simp [h2])]
    · rw [if_neg h1]
      by_cases h2 : s.name = q
      · rw [List.find?_cons_of_pos _ (by simp [h2]),
          List.find?_cons_of_pos _ (by simp [h2])]
      · rw [List.find?_cons_of_neg _ (by simp [h2]),
          List.find?_cons_of_neg _ (by simp [h2])]
        exact ih

/-- A successful lookup survives appending more records to the registry. -/
theorem find?_append_some {p : Speaker → Bool} {l : List Speaker} {x : Speaker}
    (h : l.find? p = some x) (l2 : List Speaker) :
    (l ++ l2).find? p = some x := by
  rw [List.find?_append, h]; rfl

/-- The pitch factor visible through `get_speaker` is never changed by a
later `add_speaker` call, whatever its arguments. -/
theorem get_speaker_pitch_stable (sm : SpeakerManager)
    (nm g num : Str) (d : ℚ) (q : Str) (p : ℚ)
    (h : (get_speaker sm q).map Speaker.pitch_factor = some p) :
    (get_speaker (add_speaker sm nm g num d) q).map Speaker.pitch_factor = some p := by
  unfold add_speaker
  split
  · rw [get_speaker] at h ⊢
    simpa [updateFirst_find?_pitch] using h
  · rw [get_speaker] at h ⊢
    obtain ⟨x, hx, hpx⟩ : ∃ x, sm.speakers.find? (fun s => s.name = q) = some x ∧
        x.pitch_factor = p := by
      cases hfind : sm.speakers.find? (fun s => s.name = q) with
      | none => rw [hfind] at h; simp at h
      | some x => rw [hfind] at h; exact ⟨x, rfl, by simpa using h⟩
    simp only []
    rw [find?_append_some hx]
    simp [hpx]

/-- A registered name stays registered across `add_speaker`. -/
theorem get_speaker_isSome_stable (sm : SpeakerManager)
    (nm g num : Str) (d : ℚ) (q : Str)
    (h : (get_speaker sm q).isSome = true) :
    (get_speaker (add_speaker sm nm g num d) q).isSome = true := by
  obtain ⟨x, hx⟩ := Option.isSome_iff_exists.mp h
  have := get_speaker_pitch_stable sm nm g num d q x.pitch_factor (by rw [hx]; rfl)
  cases hres : get_speaker (add_speaker sm nm g num d) q with
  | none => rw [hres] at this; simp at this
  | some y => rfl

/-- After `add_speaker sm nm ...`, the name `nm` is registered. -/
theorem get_speaker_after_add (sm : SpeakerManager) (nm g num : Str) (d : ℚ) :
    (get_speaker (add_speaker sm nm g num d) nm).isSome = true := by
  by_cases h : (get_speaker sm nm).isSome = true
  · exact get_speaker_isSome_stable sm nm g num d nm h
  · unfold add_speaker
    rw [if_neg h]
    unfold get_speaker at h ⊢
    simp only []
    rw [List.find?_append]
    cases hfind : sm.speakers.find? (fun s => s.name = nm) with
    | some x => rw [hfind] at h; simp at h
    | none => simp [List.find?]

/-- Every record of `updateFirst nm g l` is a record of `l`, possibly with
its gender upgraded. -/
theorem updateFirst_mem (nm g : Str) (l : List Speaker) (s : Speaker)
    (h : s ∈ updateFirst nm g l) :
    ∃ t ∈ l, s = t ∨ s = upgradeGender g t := by
  induction l with
  | nil => simp [updateFirst] at h
  | cons x rest ih =>
    unfold updateFirst at h
    split at h
    · rcases List.mem_cons.mp h with h | h
      · exact ⟨x, List.mem_cons_self x rest, Or.inr h⟩
      · exact ⟨s, List.mem_cons_of_mem x h, Or.inl rfl⟩
    · rcases List.mem_cons.mp h with h | h
      · exact ⟨x, List.mem_cons_self x rest, Or.inl h⟩
      · obtain ⟨t, ht, hst⟩ := ih h
        exact ⟨t, List.mem_cons_of_mem x ht, hst⟩

/-- Every record present after `add_speaker` is either an old record with
its pitch factor and name unchanged, or the freshly inserted record. -/
theorem add_speaker_mem (sm : SpeakerManager) (nm g num : Str) (d : ℚ)
    (s : Speaker) (h : s ∈ (add_speaker sm nm g num d).speakers) :
    (∃ t ∈ sm.speakers, s.pitch_factor = t.pitch_factor ∧ s.name = t.name) ∨
      s = ⟨nm, g, num, d⟩ := by
  unfold add_speaker at h
  split at h
  · simp only [] at h
    obtain ⟨t, ht, hst⟩ := updateFirst_mem nm g sm.speakers s h
    rcases hst with h2 | h2
    · exact Or.inl ⟨t, ht, by rw [h2], by rw [h2]⟩
    · exact Or.inl ⟨t, ht, by rw [h2, upgradeGender_pitch],
        by rw [h2, upgradeGender_name]⟩
  · simp only [] at h
    rcases List.mem_append.mp h with h2 | h2
    · exact Or.inl ⟨s, h2, rfl, rfl⟩
    · simp at h2; exact Or.inr h2

/-- Unfolding of one registry operation. -/
theorem runOps_cons (sm : SpeakerManager) (o : AddOp) (rest : List AddOp) :
    runOps sm (o :: rest) = runOps (add_speaker sm o.name o.gender o.number o.draw) rest := rfl

/-- The pitch factor visible through `get_speaker` survives any further
sequence of registry operations. -/
theorem runOps_pitch_stable (ops : List AddOp) (sm : SpeakerManager)
    (q : Str) (p : ℚ)
    (h : (get_speaker sm q).map Speaker.pitch_factor = some p) :
    (get_speaker (runOps sm ops) q).map Speaker.pitch_factor = some p := by
  induction ops generalizing sm with
  | nil => exact h
  | cons o rest ih =>
    rw [runOps_cons]
    exact ih _ (get_speaker_pitch_stable sm o.name o.gender o.number o.draw q p h)

/-- The pitch-range invariant is preserved by any sequence of registry
operations whose draws lie in the configured range. -/
theorem runOps_pitch_range (ops : List AddOp) (sm : SpeakerManager)
    (hops : ∀ o ∈ ops, PITCH_FACTOR_RANGE.1 ≤ o.draw ∧ o.draw < PITCH_FACTOR_RANGE.2)
    (hsm : ∀ s ∈ sm.speakers, s.name ≠ "Narrator".data →
      PITCH_FACTOR_RANGE.1 ≤ s.pitch_factor ∧ s.pitch_factor < PITCH_FACTOR_RANGE.2) :
    ∀ s ∈ (runOps sm ops).speakers, s.name ≠ "Narrator".data →
      PITCH_FACTOR_RANGE.1 ≤ s.pitch_factor ∧ s.pitch_factor < PITCH_FACTOR_RANGE.2 := by
  induction ops generalizing sm with
  | nil => exact hsm
  | cons o rest ih =>
    rw [runOps_cons]
    refine ih _ (fun o2 ho2 => hops o2 (List.mem_cons_of_mem o ho2)) ?_
    intro s hs hname
    rcases add_speaker_mem sm o.name o.gender o.number o.draw s hs with ⟨t, ht, hp, hn⟩ | hnew
    · rw [hp]; exact hsm t ht (by rw [← hn]; exact hname)
    · rw [hnew]
      exact hops o (List.mem_cons_self o rest)

/-- Claim C8 (amended only in notation): after any sequence of registry
operations from construction whose uniform draws lie in
`PITCH_FACTOR_RANGE`, every registered non-Narrator speaker has
`pitch_factor` in [0.8, 1.3); and the pitch factor visible through
`get_speaker` for an already-registered name is never changed by later
operations — it is assigned exactly once, at first insertion. -/
theorem pitch_factor_once_and_in_range (ops : List AddOp)
    (h : ∀ o ∈ ops, PITCH_FACTOR_RANGE.1 ≤ o.draw ∧ o.draw < PITCH_FACTOR_RANGE.2) :
    (∀ s ∈ (runOps initManager ops).speakers, s.name ≠ "Narrator".data →
      PITCH_FACTOR_RANGE.1 ≤ s.pitch_factor ∧ s.pitch_factor < PITCH_FACTOR_RANGE.2) ∧
    (∀ (sm : SpeakerManager) (more : List AddOp) (q : Str) (p : ℚ),
      (get_speaker sm q).map Speaker.pitch_factor = some p →
      (get_speaker (runOps sm more) q).map Speaker.pitch_factor = some p) := by
  constructor
  · refine runOps_pitch_range ops initManager h ?_
    intro s hs hname
    simp [initManager] at hs
    rw [hs] at hname
    simp at hname
  · intro sm more q p hq
    exact runOps_pitch_stable more sm q p hq

/-- Witness for C8: a concrete run registering one speaker with draw 1. -/
theorem pitch_factor_once_and_in_range_witness :
    PITCH_FACTOR_RANGE.1 ≤ (⟨"Meg".data, "unknown".data, "singular".data,
      (1 : ℚ)⟩ : Speaker).pitch_factor ∧
    (⟨"Meg".data, "unknown".data, "singular".data, (1 : ℚ)⟩ : Speaker).pitch_factor
      < PITCH_FACTOR_RANGE.2 :=
  (pitch_factor_once_and_in_range [opMeg]
      (by
        intro o ho
        simp only [List.mem_singleton] at ho
        subst ho
        constructor <;> norm_num [opMeg, PITCH_FACTOR_RANGE])).1
    ⟨"Meg".data, "unknown".data, "singular".data, (1 : ℚ)⟩ (by decide) (by decide)

/-- Claim C9: after any sequence of registry operations from construction,
the registry contains a speaker named Narrator with pitch factor exactly 1.
The registry interface has no removal operation, and `get_speaker` is
read-only, so this covers all operation sequences. -/
theorem narrator_always_pitch_one (ops : List AddOp) :
    (get_speaker (runOps initManager ops) "Narrator".data).map Speaker.pitch_factor
      = some 1 :=
  runOps_pitch_stable ops initManager "Narrator".data 1 (by decide)

/-! Assembler lemmas. -/

/-- Inserting into the sorted list is a permutation of consing. -/
theorem insertSorted_perm (x : Str × ℕ) (l : List (Str × ℕ)) :
    (insertSorted x l).Perm (x :: l) := by
  induction l with
  | nil => exact List.Perm.refl _
  | cons y rest ih =>
    unfold insertSorted
    split
    · exact List.Perm.refl _
    · exact (ih.cons y).trans (List.Perm.swap x y rest)

/-- The sorted directory listing is a permutation of the listing. -/
theorem pySorted_perm (l : List (Str × ℕ)) : (pySorted l).Perm l := by
  induction l with
  | nil => exact List.Perm.refl _
  | cons x rest ih =>
    exact (insertSorted_perm x (pySorted rest)).trans (ih.cons x)

/-- Closed form of the assembler fold: every concatenated file contributes
its duration plus one full silence gap. -/
theorem combine_fold_sum (l : List (Str × ℕ)) (a : ℕ) :
    l.foldl (fun acc f => acc + f.2 + DELAY_BETWEEN_LINES_MS) a =
      a + (l.map Prod.snd).sum + l.length * DELAY_BETWEEN_LINES_MS := by
  induction l generalizing a with
  | nil => simp
  | cons x rest ih =>
    rw [List.foldl_cons, ih]
    simp only [List.map_cons, List.sum_cons, List.length_cons]
    ring

/-- Claim C2 (amended): for every directory listing whose ".wav" files are
non-empty, the combined duration equals the sum of the per-entry durations
plus entryCount times the configured silence gap — the gap is appended
after every entry, including the last one (SuperReader.py line 315 adds
the silent segment inside the loop, after each file). -/
theorem combine_audio_files_duration (files : List (Str × ℕ))
    (h : files.filter (fun f => ".wav".data.isSuffixOf f.1) ≠ []) :
    combine_audio_files files =
      ((files.filter (fun f => ".wav".data.isSuffixOf f.1)).map Prod.snd).sum +
        (files.filter (fun f => ".wav".data.isSuffixOf f.1)).length *
          DELAY_BETWEEN_LINES_MS := by
  have hperm : ((pySorted files).filter
      (fun f => ".wav".data.isSuffixOf f.1)).Perm
      (files.filter (fun f => ".wav".data.isSuffixOf f.1)) :=
    (pySorted_perm files).filter _
  rw [combine_audio_files, combine_fold_sum]
  rw [(hperm.map Prod.snd).sum_eq, hperm.length_eq]
  omega

/-- Counterexample to claim C2 as stated: one file of duration 1000 ms
combines to 1300 ms, not to 1000 + (1 - 1) * gap = 1000 ms. -/
theorem combine_gap_after_last_cex :
    combine_audio_files [("01_Narrator.wav".data, 1000)] = 1300 ∧
      (1300 : ℕ) ≠ 1000 + (1 - 1) * DELAY_BETWEEN_LINES_MS := by decide

/-- Witness for C2 amended: a concrete three-file directory, one of which
is not a ".wav" file and is ignored. -/
theorem combine_audio_files_duration_witness :
    combine_audio_files
      [("01_Narrator.wav".data, 1000), ("02_Meg.wav".data, 500),
        ("notes.txt".data, 7)] = 2100 :=
  (combine_audio_files_duration
      [("01_Narrator.wav".data, 1000), ("02_Meg.wav".data, 500),
        ("notes.txt".data, 7)] (by decide)).trans (by decide)

/-! Pitch-exemption theorems. -/

/-- Claim C3 (amended): a waveform below the minimum duration threshold is
written through unmodified (same samples, same rate) by the sequential
path only; the concurrent path (`process_entry`) has no duration check and
always invokes `apply_pitch_shift_librosa`, so the exemption does not
apply there. -/
theorem pitch_short_exemption_single_only (y : List ℚ) (sr : ℕ) (factor : ℚ)
    (h : audioDuration y sr < MIN_AUDIO_DURATION) :
    pitch_stage_single y sr factor = AudioWrite.passthrough y sr ∧
    pitch_stage_multi y sr factor = AudioWrite.shifted y sr factor ∧
    pitch_stage_multi y sr factor ≠ AudioWrite.passthrough y sr := by
  refine ⟨by rw [pitch_stage_single, if_pos h], rfl, by simp [pitch_stage_multi]⟩

/-- Counterexample to claim C3 as stated: a one-sample waveform at rate 100
(duration 1/100 s, below the 0.5 s threshold) is passed through by the
sequential path but pitch-shifted — not passed through — by the concurrent
path. -/
theorem pitch_short_exemption_cex :
    audioDuration [0] 100 < MIN_AUDIO_DURATION ∧
    pitch_stage_single [0] 100 (6/5) = AudioWrite.passthrough [0] 100 ∧
    pitch_stage_multi [0] 100 (6/5) ≠ AudioWrite.passthrough [0] 100 := by
  have hd : audioDuration [0] 100 < MIN_AUDIO_DURATION := by
    norm_num [audioDuration, MIN_AUDIO_DURATION]
  refine ⟨hd, by rw [pitch_stage_single, if_pos hd], by simp [pitch_stage_multi]⟩

/-- Witness for C3 amended at the concrete short waveform. -/
theorem pitch_short_exemption_single_only_witness :
    pitch_stage_single [0] 100 (6/5) = AudioWrite.passthrough [0] 100 ∧
    pitch_stage_multi [0] 100 (6/5) = AudioWrite.shifted [0] 100 (6/5) :=
  ⟨(pitch_short_exemption_single_only [0] 100 (6/5)
      (by norm_num [audioDuration, MIN_AUDIO_DURATION])).1,
    (pitch_short_exemption_single_only [0] 100 (6/5)
      (by norm_num [audioDuration, MIN_AUDIO_DURATION])).2.1⟩

/-! Segmenter lemmas. -/

/-- Dropping leading whitespace does not change the non-whitespace content. -/
theorem filter_nonWs_dropWhile (l : Str) :
    (l.dropWhile pySpace).filter nonWs = l.filter nonWs := by
  induction l with
  | nil => rfl
  | cons c rest ih =>
    by_cases h : pySpace c = true
    · rw [List.dropWhile_cons_of_pos h, ih, List.filter_cons]
      simp [nonWs, h]
    · rw [List.dropWhile_cons_of_neg h]

/-- Stripping does not change the non-whitespace content. -/
theorem filter_nonWs_pyStrip (l : Str) :
    (pyStrip l).filter nonWs = l.filter nonWs := by
  rw [pyStrip, List.filter_reverse, filter_nonWs_dropWhile, List.filter_reverse,
    List.reverse_reverse, filter_nonWs_dropWhile]

/-- The raw runs emitted by the scanner concatenate to the input with the
double-quote characters removed. -/
theorem scanSeg_flatten (cs : Str) : ∀ (inDlg : Bool) (acc : Str),
    ((scanSeg inDlg acc cs).map Prod.snd).flatten =
      acc.reverse ++ cs.filter (fun c => c != '"') := by
  induction cs with
  | nil => intro inDlg acc; simp [scanSeg]
  | cons c rest ih =>
    intro inDlg acc
    by_cases h : c = '"'
    · subst h
      simp [scanSeg, ih]
    · simp [scanSeg, h, ih, List.filter_cons]

/-- Dropping whitespace-only runs and stripping the kept ones does not
change the non-whitespace content of the concatenation. -/
theorem segs_filterMap_flatten (segs : List (Bool × Str)) :
    (((segs.filterMap fun s =>
        if pyStrip s.2 = [] then none else some (⟨s.1, pyStrip s.2⟩ : Seg)).map
      Seg.text).flatten).filter nonWs =
    ((segs.map Prod.snd).flatten).filter nonWs := by
  induction segs with
  | nil => rfl
  | cons s rest ih =>
    rw [List.filterMap_cons]
    by_cases h : pyStrip s.2 = []
    · rw [if_pos h]
      have h2 : s.2.filter nonWs = [] := by
        rw [← filter_nonWs_pyStrip, h]; rfl
      simp only [List.map_cons, List.flatten_cons, List.filter_append, h2, ih,
        List.nil_append]
    · rw [if_neg h]
      simp only [List.map_cons, List.flatten_cons, List.filter_append, ih,
        filter_nonWs_pyStrip]

/-- Claim C6 (amended): for every line with an even number of double-quote
characters, the concatenation of the segment texts, ignoring tags,
reconstructs the original line's non-whitespace content with the
double-quote delimiters removed (the quote characters themselves never
appear in any segment). -/
theorem segments_reconstruct_line (line : Str)
    (h : Even (line.count '"')) :
    (((split_narration_dialogue line).map Seg.text).flatten).filter nonWs =
      line.filter (fun c => nonWs c && c != '"') := by
  rw [split_narration_dialogue, segs_filterMap_flatten, scanSeg_flatten]
  simp [List.filter_filter]

/-- Counterexample to claim C6 as stated: the line consisting of a quoted
letter has non-whitespace content of three characters, but the segments
concatenate to the single letter — the quote delimiters are dropped. -/
theorem segments_reconstruct_line_cex :
    Even (("\"a\"".data).count '"') ∧
    (((split_narration_dialogue "\"a\"".data).map Seg.text).flatten).filter nonWs
      ≠ ("\"a\"".data).filter nonWs := by decide

/-- Witness for C6 amended at a concrete mixed line. -/
theorem segments_reconstruct_line_witness :
    (((split_narration_dialogue "He said, \"Hi.\" She left.".data).map
      Seg.text).flatten).filter nonWs =
      ("He said, \"Hi.\" She left.".data).filter (fun c => nonWs c && c != '"') :=
  segments_reconstruct_line "He said, \"Hi.\" She left.".data (by decide)

/-- A character of the stripped run is a character of the run. -/
theorem mem_pyStrip {c : Char} {l : Str} (h : c ∈ pyStrip l) : c ∈ l := by
  rw [pyStrip, List.mem_reverse] at h
  have h2 : c ∈ (l.dropWhile pySpace).reverse := (List.dropWhile_sublist _).mem h
  rw [List.mem_reverse] at h2
  exact (List.dropWhile_sublist _).mem h2

/-- No run emitted by the scanner contains a double-quote character. -/
theorem scanSeg_no_quote (cs : Str) : ∀ (inDlg : Bool) (acc : Str),
    (∀ x ∈ acc, x ≠ '"') →
    ∀ s ∈ scanSeg inDlg acc cs, ∀ c ∈ s.2, c ≠ '"' := by
  induction cs with
  | nil =>
    intro inDlg acc hacc s hs c hc
    simp only [scanSeg, List.mem_singleton] at hs
    subst hs
    simp only [List.mem_reverse] at hc
    exact hacc c hc
  | cons d rest ih =>
    intro inDlg acc hacc s hs c hc
    by_cases h : d = '"'
    · subst h
      simp only [scanSeg, reduceIte, List.mem_cons] at hs
      rcases hs with hs | hs
      · subst hs
        simp only [List.mem_reverse] at hc
        exact hacc c hc
      · exact ih (!inDlg) [] (by simp) s hs c hc
    · simp only [scanSeg, if_neg h] at hs
      refine ih inDlg (d :: acc) ?_ s hs c hc
      intro x hx
      rcases List.mem_cons.mp hx with hx | hx
      · rw [hx]; exact h
      · exact hacc x hx

/-- No segment produced by the segmenter contains a double-quote character:
the delimiters, matched or unmatched, are dropped, never absorbed. -/
theorem split_no_quote (line : Str) (s : Seg)
    (hs : s ∈ split_narration_dialogue line) : '"' ∉ s.text := by
  rw [split_narration_dialogue] at hs
  obtain ⟨a, ha, hfa⟩ := List.mem_filterMap.mp hs
  intro hq
  split at hfa
  · exact Option.noConfusion hfa
  · have hst : s.text = pyStrip a.2 := by
      rw [← Option.some_inj.mp hfa]
    rw [hst] at hq
    exact scanSeg_no_quote line false [] (by simp) a ha '"' (mem_pyStrip hq) rfl

/-- Each dialogue run consumes a full pair of quote characters: twice the
number of dialogue runs is bounded by the quote count (plus one for an
already-open quote). -/
theorem scanSeg_dialogue_count (cs : Str) : ∀ (inDlg : Bool) (acc : Str),
    2 * (scanSeg inDlg acc cs).countP (fun s => s.1) ≤
      cs.count '"' + (if inDlg then 1 else 0) := by
  induction cs with
  | nil =>
    intro inDlg acc
    simp [scanSeg, List.countP_cons]
  | cons d rest ih =>
    intro inDlg acc
    by_cases h : d = '"'
    · subst h
      have h1 := ih (!inDlg) []
      simp only [scanSeg, reduceIte, List.countP_cons, List.count_cons_self]
      cases inDlg <;> simp at h1 ⊢ <;> omega
    · have h1 := ih inDlg (d :: acc)
      simp only [scanSeg, if_neg h]
      rw [List.count_cons_of_ne (Ne.symm h)]
      exact h1

/-- Dropping whitespace-only runs cannot increase the dialogue count. -/
theorem filterMap_dialogue_le (segs : List (Bool × Str)) :
    ((segs.filterMap fun s =>
        if pyStrip s.2 = [] then none else some (⟨s.1, pyStrip s.2⟩ : Seg)).countP
      (fun p => p.isDialogue)) ≤ segs.countP (fun s => s.1) := by
  induction segs with
  | nil => simp
  | cons s rest ih =>
    rw [List.filterMap_cons]
    by_cases h : pyStrip s.2 = []
    · rw [if_pos h]
      simp only [List.countP_cons]
      omega
    · rw [if_neg h]
      simp only [List.countP_cons]
      cases hs : s.1 <;> simp [hs] <;> omega

/-- Claim C7 (amended): for every line with an odd number of double-quote
characters, segmentation is total and raises nothing, the unmatched quote
produces no dialogue segment (dialogue segments consume quote pairs, so at
least one quote is left over), and the unmatched quote character is dropped
outright — it appears in no segment — while the surrounding non-whitespace
content is preserved in narration segments. -/
theorem unmatched_quote_dropped (line : Str) (h : Odd (line.count '"')) :
    (∀ s ∈ split_narration_dialogue line, '"' ∉ s.text) ∧
    2 * (split_narration_dialogue line).countP (fun s => s.isDialogue) + 1 ≤
      line.count '"' ∧
    (((split_narration_dialogue line).map Seg.text).flatten).filter nonWs =
      line.filter (fun c => nonWs c && c != '"') := by
  refine ⟨fun s hs => split_no_quote line s hs, ?_, ?_⟩
  · have h1 := scanSeg_dialogue_count line false []
    have h2 := filterMap_dialogue_le (scanSeg false [] line)
    rw [split_narration_dialogue]
    obtain ⟨k, hk⟩ := h
    simp only [if_neg Bool.false_ne_true] at h1
    omega
  · rw [split_narration_dialogue, segs_filterMap_flatten, scanSeg_flatten]
    simp [List.filter_filter]

/-- Counterexample to claim C7 as stated: in `ab"cd` the stray quote is not
absorbed into the narration text — both narration segments are quote-free
and the quote character appears nowhere in the output. -/
theorem unmatched_quote_dropped_cex :
    Odd (("ab\"cd".data).count '"') ∧
    split_narration_dialogue "ab\"cd".data =
      [⟨false, "ab".data⟩, ⟨false, "cd".data⟩] ∧
    (((split_narration_dialogue "ab\"cd".data).map Seg.text).flatten).count '"'
      = 0 := by decide

/-- Witness for C7 amended at the concrete line `ab"cd`. -/
theorem unmatched_quote_dropped_witness :
    (((split_narration_dialogue "ab\"cd".data).map Seg.text).flatten).filter nonWs
      = ("ab\"cd".data).filter (fun c => nonWs c && c != '"') :=
  (unmatched_quote_dropped "ab\"cd".data (by decide)).2.2

/-! Process-pipeline lemmas. -/

/-- `add_speaker` does not touch the superbook. -/
theorem add_speaker_superbook (sm : SpeakerManager) (n g num : Str) (d : ℚ) :
    (add_speaker sm n g num d).superbook = sm.superbook := by
  unfold add_speaker; split <;> rfl

/-- `appendEntry` does not touch the registry. -/
theorem appendEntry_speakers (sm : SpeakerManager) (e : Entry) :
    (appendEntry sm e).speakers = sm.speakers := rfl

/-- Lookup is unaffected by appending script entries. -/
theorem get_speaker_appendEntry (sm : SpeakerManager) (e : Entry) (q : Str) :
    get_speaker (appendEntry sm e) q = get_speaker sm q := rfl

/-- Processing one segment appends exactly one entry, whose text is the
segment text. -/
theorem processPart_shape (rng : ℕ → ℚ) (named : Option Str) (gender : Str)
    (st : SpeakerManager × Option Str) (part : Seg) :
    ∃ spk : Str, (processPart rng named gender st part).1.superbook =
      st.1.superbook ++ [⟨spk, part.text⟩] := by
  unfold processPart
  by_cases hd : part.isDialogue = true
  · rw [if_pos hd]
    cases named with
    | some n =>
      exact ⟨n, by simp [appendEntry, add_speaker_superbook]⟩
    | none =>
      exact ⟨st.2.getD "Unnamed Speaker 1".data, by simp [appendEntry]⟩
  · rw [if_neg hd]
    cases hdet : detect_attribution part.text with
    | some tok =>
      exact ⟨"Narrator".data, by simp [appendEntry, add_speaker_superbook]⟩
    | none =>
      exact ⟨"Narrator".data, by simp [appendEntry]⟩

/-- Processing a narration segment always records its text under the
Narrator identity, whatever the attribution outcome. -/
theorem processPart_narration_superbook (rng : ℕ → ℚ) (named : Option Str)
    (gender : Str) (st : SpeakerManager × Option Str) (text : Str) :
    (processPart rng named gender st ⟨false, text⟩).1.superbook =
      st.1.superbook ++ [⟨"Narrator".data, text⟩] := by
  unfold processPart
  simp only [Bool.false_eq_true, if_false]
  cases hdet : detect_attribution text with
  | some tok => simp [appendEntry, add_speaker_superbook]
  | none => simp [appendEntry]

/-- The foreign-key invariant of the attribution loop: every recorded entry
names a registered speaker or the unregistered placeholder; the context
speaker is registered; Narrator is registered.  Preserved by one segment. -/
theorem processPart_foreign_key (rng : ℕ → ℚ) (named : Option Str)
    (gender : Str) (st : SpeakerManager × Option Str) (part : Seg)
    (h1 : ∀ e ∈ st.1.superbook, (get_speaker st.1 e.speaker).isSome = true ∨
      e.speaker = "Unnamed Speaker 1".data)
    (h2 : ∀ s, st.2 = some s → (get_speaker st.1 s).isSome = true)
    (h3 : (get_speaker st.1 "Narrator".data).isSome = true) :
    (∀ e ∈ (processPart rng named gender st part).1.superbook,
      (get_speaker (processPart rng named gender st part).1 e.speaker).isSome = true ∨
      e.speaker = "Unnamed Speaker 1".data) ∧
    (∀ s, (processPart rng named gender st part).2 = some s →
      (get_speaker (processPart rng named gender st part).1 s).isSome = true) ∧
    (get_speaker (processPart rng named gender st part).1 "Narrator".data).isSome
      = true := by
  unfold processPart
  by_cases hd : part.isDialogue = true
  · rw [if_pos hd]
    cases named with
    | some n =>
      simp only [get_speaker_appendEntry]
      refine ⟨?_, ?_, ?_⟩
      · intro e he
        simp only [appendEntry, add_speaker_superbook, List.mem_append,
          List.mem_singleton] at he
        rcases he with he | he
        · rcases h1 e he with hh | hh
          · exact Or.inl (get_speaker_isSome_stable _ _ _ _ _ _ hh)
          · exact Or.inr hh
        · subst he
          exact Or.inl (get_speaker_after_add _ _ _ _ _)
      · intro s hs
        rw [Option.some_inj.mp hs.symm] at *
        exact get_speaker_after_add _ _ _ _ _
      · exact get_speaker_isSome_stable _ _ _ _ _ _ h3
    | none =>
      simp only [get_speaker_appendEntry]
      refine ⟨?_, ?_, h3⟩
      · intro e he
        simp only [appendEntry, List.mem_append, List.mem_singleton] at he
        rcases he with he | he
        · exact h1 e he
        · subst he
          cases hlast : st.2 with
          | some s => exact Or.inl (h2 s hlast)
          | none => exact Or.inr rfl
      · intro s hs
        exact h2 s hs
  · rw [if_neg hd]
    cases hdet : detect_attribution part.text with
    | some tok =>
      simp only [get_speaker_appendEntry]
      refine ⟨?_, ?_, ?_⟩
      · intro e he
        simp only [appendEntry, add_speaker_superbook, List.mem_append,
          List.mem_singleton] at he
        rcases he with he | he
        · rcases h1 e he with hh | hh
          · exact Or.inl (get_speaker_isSome_stable _ _ _ _ _ _ hh)
          · exact Or.inr hh
        · subst he
          exact Or.inl (get_speaker_isSome_stable _ _ _ _ _ _ h3)
      · intro s hs
        rw [Option.some_inj.mp hs.symm] at *
        exact get_speaker_after_add _ _ _ _ _
      · exact get_speaker_isSome_stable _ _ _ _ _ _ h3
    | none =>
      simp only [get_speaker_appendEntry]
      refine ⟨?_, ?_, h3⟩
      · intro e he
        simp only [appendEntry, List.mem_append, List.mem_singleton] at he
        rcases he with he | he
        · exact h1 e he
        · subst he
          exact Or.inl h3
      · intro s hs
        exact h2 s hs

/-- The foreign-key invariant is preserved by a whole list of segments. -/
theorem foldl_processPart_foreign_key (rng : ℕ → ℚ) (named : Option Str)
    (gender : Str) (parts : List Seg) :
    ∀ st : SpeakerManager × Option Str,
    (∀ e ∈ st.1.superbook, (get_speaker st.1 e.speaker).isSome = true ∨
      e.speaker = "Unnamed Speaker 1".data) →
    (∀ s, st.2 = some s → (get_speaker st.1 s).isSome = true) →
    (get_speaker st.1 "Narrator".data).isSome = true →
    (∀ e ∈ (parts.foldl (processPart rng named gender) st).1.superbook,
      (get_speaker (parts.foldl (processPart rng named gender) st).1
        e.speaker).isSome = true ∨ e.speaker = "Unnamed Speaker 1".data) ∧
    (∀ s, (parts.foldl (processPart rng named gender) st).2 = some s →
      (get_speaker (parts.foldl (processPart rng named gender) st).1 s).isSome
        = true) ∧
    (get_speaker (parts.foldl (processPart rng named gender) st).1
      "Narrator".data).isSome = true := by
  induction parts with
  | nil => intro st h1 h2 h3; exact ⟨h1, h2, h3⟩
  | cons p rest ih =>
    intro st h1 h2 h3
    rw [List.foldl_cons]
    obtain ⟨g1, g2, g3⟩ := processPart_foreign_key rng named gender st p h1 h2 h3
    exact ih _ g1 g2 g3

/-- The foreign-key invariant is preserved by a whole run of
`process_text_lines`. -/
theorem process_text_lines_foreign_key_inv (lines : List Str)
    (annot : Str → Annot) (rng : ℕ → ℚ) :
    ∀ st : SpeakerManager × Option Str,
    (∀ e ∈ st.1.superbook, (get_speaker st.1 e.speaker).isSome = true ∨
      e.speaker = "Unnamed Speaker 1".data) →
    (∀ s, st.2 = some s → (get_speaker st.1 s).isSome = true) →
    (get_speaker st.1 "Narrator".data).isSome = true →
    (∀ e ∈ (lines.foldl (processLine annot rng) st).1.superbook,
      (get_speaker (lines.foldl (processLine annot rng) st).1
        e.speaker).isSome = true ∨ e.speaker = "Unnamed Speaker 1".data) ∧
    (∀ s, (lines.foldl (processLine annot rng) st).2 = some s →
      (get_speaker (lines.foldl (processLine annot rng) st).1 s).isSome = true) ∧
    (get_speaker (lines.foldl (processLine annot rng) st).1
      "Narrator".data).isSome = true := by
  induction lines with
  | nil => intro st h1 h2 h3; exact ⟨h1, h2, h3⟩
  | cons l rest ih =>
    intro st h1 h2 h3
    rw [List.foldl_cons]
    obtain ⟨g1, g2, g3⟩ := foldl_processPart_foreign_key rng
      (annot (clean_text l)).namedSpeaker _
      (split_narration_dialogue (clean_text l)) st h1 h2 h3
    exact ih _ g1 g2 g3

/-- Claim C4 (amended): every script entry appended by `process_text_lines`
names a speaker registered in the registry, except for entries produced by
the placeholder fallback, whose speaker is the literal string
"Unnamed Speaker 1" — a name the heuristic pipeline never registers. -/
theorem script_speaker_foreign_key (lines : List Str) (annot : Str → Annot)
    (rng : ℕ → ℚ) :
    ∀ e ∈ (process_text_lines lines annot rng).1.superbook,
      (get_speaker (process_text_lines lines annot rng).1 e.speaker).isSome
        = true ∨ e.speaker = "Unnamed Speaker 1".data := by
  have h := process_text_lines_foreign_key_inv lines annot rng
    (initManager, none) (by simp [initManager]) (by simp) (by decide)
  exact h.1

/-- Counterexample to claim C4 as stated: a single dialogue line with no
named speaker and no prior context yields an entry whose speaker,
"Unnamed Speaker 1", is not present in the registry — the placeholder
fallback does not register the placeholder. -/
theorem placeholder_not_registered_cex :
    (process_text_lines ["\"Hello\"".data] annotNone rngOne).1.superbook =
      [⟨"Unnamed Speaker 1".data, "Hello".data⟩] ∧
    get_speaker (process_text_lines ["\"Hello\"".data] annotNone rngOne).1
      "Unnamed Speaker 1".data = none := by decide

/-- Witness for C4 amended: a pure narration line yields a Narrator entry,
and the theorem applied to it gives a registered speaker (or the
placeholder, which does not occur here). -/
theorem script_speaker_foreign_key_witness :
    (get_speaker (process_text_lines ["Hello there".data] annotNone rngOne).1
      ("Narrator".data : Str)).isSome = true ∨
    ("Narrator".data : Str) = "Unnamed Speaker 1".data :=
  script_speaker_foreign_key ["Hello there".data] annotNone rngOne
    ⟨"Narrator".data, "Hello there".data⟩ (by decide)

/-! Attribution lemmas. -/

/-- `findSome?` succeeds when some element of the list succeeds. -/
theorem findSome?_isSome_of_mem {α β : Type} (f : α → Option β) (l : List α)
    (a : α) (ha : a ∈ l) (hf : (f a).isSome = true) :
    (l.findSome? f).isSome = true := by
  induction l with
  | nil => exact absurd ha (List.not_mem_nil a)
  | cons x rest ih =>
    rw [List.findSome?_cons]
    cases hx : f x with
    | some b => rfl
    | none =>
      rcases List.mem_cons.mp ha with h | h
      · rw [h, hx] at hf; exact absurd hf (by simp)
      · exact ih h

/-- One alternative of the attribution pattern matches at a position that
starts with the verb, a space and a word character. -/
theorem tryVerb_isSome (v : Str) (c : Char) (rest2 : Str)
    (hc : wordChar c = true) :
    (tryVerb (v ++ ' ' :: c :: rest2) v).isSome = true := by
  have hp : v.isPrefixOf (v ++ ' ' :: c :: rest2) = true := by
    rw [List.isPrefixOf_iff_prefix]; exact List.prefix_append _ _
  unfold tryVerb
  rw [if_pos hp, List.drop_left]
  simp only [List.takeWhile_cons_of_pos hc]
  simp

/-- The whole alternation matches at such a position. -/
theorem matchVerbHere_isSome (v : Str) (hv : v ∈ attributionVerbs) (c : Char)
    (rest2 : Str) (hc : wordChar c = true) :
    (matchVerbHere (v ++ ' ' :: c :: rest2)).isSome = true :=
  findSome?_isSome_of_mem _ attributionVerbs v hv (tryVerb_isSome v c rest2 hc)

/-- Completeness of the leftmost-match search: if the alternation matches
right after a prefix that ends in a non-word character (or is empty at the
start of the text), the search succeeds. -/
theorem searchAttr_complete (tail : Str)
    (h : (matchVerbHere tail).isSome = true) :
    ∀ (pre : Str) (prevW : Bool), (pre = [] → prevW = false) →
    (∀ d, pre.getLast? = some d → wordChar d = false) →
    (searchAttr prevW (pre ++ tail)).isSome = true := by
  intro pre
  induction pre with
  | nil =>
    intro prevW hp _
    rw [hp rfl, List.nil_append]
    cases tail with
    | nil => exact absurd h (by decide)
    | cons c rest =>
      rw [searchAttr]
      simp only [Bool.false_eq_true, if_false]
      cases hm : matchVerbHere (c :: rest) with
      | none => rw [hm] at h; exact absurd h (by simp)
      | some tok => rfl
  | cons x pre ih =>
    intro prevW _ hl
    rw [List.cons_append, searchAttr]
    cases hm : (if prevW = true then none else matchVerbHere (x :: (pre ++ tail))) with
    | some tok => rfl
    | none =>
      refine ih (wordChar x) ?_ ?_
      · intro hpre
        subst hpre
        exact hl x (by simp)
      · intro d hd
        cases pre with
        | nil => simp at hd
        | cons y ys =>
          exact hl d (by rw [List.getLast?_cons_cons]; exact hd)

/-- Processing a narration segment with a detected attribution registers
the detected token and makes it the context speaker. -/
theorem processPart_narration_attribution (rng : ℕ → ℚ) (named : Option Str)
    (gender : Str) (sm : SpeakerManager) (last : Option Str) (text tok : Str)
    (hdet : detect_attribution text = some tok) :
    (get_speaker (processPart rng named gender (sm, last) ⟨false, text⟩).1
      tok).isSome = true ∧
    (processPart rng named gender (sm, last) ⟨false, text⟩).2 = some tok := by
  unfold processPart
  simp only [Bool.false_eq_true, if_false, hdet]
  exact ⟨get_speaker_after_add _ _ _ _ _, trivial⟩

/-- Claim C5 (amended): for every narration span, the span text is always
recorded under the Narrator identity; whenever the attribution regex finds
its leftmost match — one of the past-tense verbs said, asked, replied,
shouted, whispered, added, followed by one space and a non-empty run of
word characters, at a word boundary — the matched token (capitalized or
not) is registered as a speaker and becomes the context speaker; and such a
match is found whenever the text contains a verb of the set followed by a
space and a word character at a word boundary. -/
theorem narration_recorded_and_attribution (rng : ℕ → ℚ) (named : Option Str)
    (gender : Str) (sm : SpeakerManager) (last : Option Str) (text : Str) :
    (processPart rng named gender (sm, last) ⟨false, text⟩).1.superbook =
      sm.superbook ++ [⟨"Narrator".data, text⟩] ∧
    (∀ tok, detect_attribution text = some tok →
      (get_speaker (processPart rng named gender (sm, last) ⟨false, text⟩).1
        tok).isSome = true ∧
      (processPart rng named gender (sm, last) ⟨false, text⟩).2 = some tok) ∧
    (∀ (pre v : Str) (c : Char) (rest2 : Str),
      text = pre ++ (v ++ ' ' :: c :: rest2) → v ∈ attributionVerbs →
      wordChar c = true → (∀ d, pre.getLast? = some d → wordChar d = false) →
      (detect_attribution text).isSome = true) := by
  refine ⟨processPart_narration_superbook rng named gender (sm, last) text,
    fun tok hdet => processPart_narration_attribution rng named gender sm last
      text tok hdet, ?_⟩
  intro pre v c rest2 htext hv hc hl
  rw [htext, detect_attribution]
  exact searchAttr_complete (v ++ ' ' :: c :: rest2)
    (matchVerbHere_isSome v hv c rest2 hc) pre false (fun _ => rfl) hl

/-- Counterexample to claim C5 as stated: the narration span
`said bob asked Meg` contains the verb `asked` immediately followed by the
capitalized token `Meg`, yet `Meg` is never registered and does not become
the context speaker: the leftmost match wins and registers the lowercase
token `bob`, which the following ambiguous dialogue is then attributed to. -/
theorem attribution_capitalization_cex :
    detect_attribution "said bob asked Meg".data = some "bob".data ∧
    (process_text_lines ["said bob asked Meg".data, "\"hi\"".data] annotNone
      rngOne).1.superbook =
      [⟨"Narrator".data, "said bob asked Meg".data⟩,
        ⟨"bob".data, "hi".data⟩] ∧
    get_speaker (process_text_lines ["said bob asked Meg".data, "\"hi\"".data]
      annotNone rngOne).1 "Meg".data = none := by decide

/-- Witness for C5 amended, at the narration text `said bob`. -/
theorem narration_recorded_and_attribution_witness :
    (processPart rngOne none "unknown".data (initManager, none)
      ⟨false, "said bob".data⟩).1.superbook =
      [⟨"Narrator".data, "said bob".data⟩] ∧
    (get_speaker (processPart rngOne none "unknown".data (initManager, none)
      ⟨false, "said bob".data⟩).1 "bob".data).isSome = true ∧
    (detect_attribution "said bob".data).isSome = true := by
  have h := narration_recorded_and_attribution rngOne none "unknown".data
    initManager none "said bob".data
  refine ⟨h.1.trans (by decide), (h.2.1 "bob".data (by decide)).1, ?_⟩
  exact h.2.2 [] "said".data 'b' "ob".data (by decide) (by decide) (by decide)
    (fun d hd => by simp at hd)

/-! Cleaning lemmas. -/

/-- Every character of a run emitted by the scanner comes from the
accumulator or from the input. -/
theorem scanSeg_chars (cs : Str) : ∀ (inDlg : Bool) (acc : Str),
    ∀ s ∈ scanSeg inDlg acc cs, ∀ c ∈ s.2, c ∈ acc ∨ c ∈ cs := by
  induction cs with
  | nil =>
    intro inDlg acc s hs c hc
    simp only [scanSeg, List.mem_singleton] at hs
    subst hs
    simp only [List.mem_reverse] at hc
    exact Or.inl hc
  | cons d rest ih =>
    intro inDlg acc s hs c hc
    by_cases h : d = '"'
    · subst h
      simp only [scanSeg, reduceIte, List.mem_cons] at hs
      rcases hs with hs | hs
      · subst hs
        simp only [List.mem_reverse] at hc
        exact Or.inl hc
      · rcases ih (!inDlg) [] s hs c hc with h2 | h2
        · exact absurd h2 (List.not_mem_nil c)
        · exact Or.inr (List.mem_cons_of_mem _ h2)
    · simp only [scanSeg, if_neg h] at hs
      rcases ih inDlg (d :: acc) s hs c hc with h2 | h2
      · rcases List.mem_cons.mp h2 with h3 | h3
        · exact Or.inr (by rw [h3]; exact List.mem_cons_self _ _)
        · exact Or.inl h3
      · exact Or.inr (List.mem_cons_of_mem _ h2)

/-- Every character of a segment text comes from the segmented line. -/
theorem split_chars (line : Str) (s : Seg)
    (hs : s ∈ split_narration_dialogue line) (c : Char) (hc : c ∈ s.text) :
    c ∈ line := by
  rw [split_narration_dialogue] at hs
  obtain ⟨a, ha, hfa⟩ := List.mem_filterMap.mp hs
  split at hfa
  · exact Option.noConfusion hfa
  · have hst : s.text = pyStrip a.2 := by
      rw [← Option.some_inj.mp hfa]
    rw [hst] at hc
    rcases scanSeg_chars line false [] a ha c (mem_pyStrip hc) with h2 | h2
    · exact absurd h2 (List.not_mem_nil c)
    · exact h2

/-- Every character surviving `clean_text` is ASCII. -/
theorem mem_clean_text {c : Char} {l : Str} (h : c ∈ clean_text l) :
    c.toNat ≤ 0x7F := by
  rw [clean_text] at h
  simpa using List.of_mem_filter h

/-- The ASCII-text invariant of the script is preserved by a list of
segments whose texts are ASCII. -/
theorem foldl_processPart_ascii (rng : ℕ → ℚ) (named : Option Str)
    (gender : Str) (parts : List Seg) :
    ∀ st : SpeakerManager × Option Str,
    (∀ e ∈ st.1.superbook, ∀ c ∈ e.text, c.toNat ≤ 0x7F) →
    (∀ p ∈ parts, ∀ c ∈ p.text, c.toNat ≤ 0x7F) →
    ∀ e ∈ (parts.foldl (processPart rng named gender) st).1.superbook,
      ∀ c ∈ e.text, c.toNat ≤ 0x7F := by
  induction parts with
  | nil => intro st hst _ e he; exact hst e he
  | cons p rest ih =>
    intro st hst hparts
    rw [List.foldl_cons]
    refine ih _ ?_ (fun q hq => hparts q (List.mem_cons_of_mem p hq))
    obtain ⟨spk, hshape⟩ := processPart_shape rng named gender st p
    rw [hshape]
    intro e he
    rcases List.mem_append.mp he with he | he
    · exact hst e he
    · rw [List.mem_singleton] at he
      rw [he]
      exact hparts p (List.mem_cons_self p rest)

/-- One processed line only appends entries with ASCII text. -/
theorem processLine_ascii (annot : Str → Annot) (rng : ℕ → ℚ)
    (st : SpeakerManager × Option Str) (line : Str)
    (hst : ∀ e ∈ st.1.superbook, ∀ c ∈ e.text, c.toNat ≤ 0x7F) :
    ∀ e ∈ (processLine annot rng st line).1.superbook,
      ∀ c ∈ e.text, c.toNat ≤ 0x7F := by
  rw [processLine]
  refine foldl_processPart_ascii _ _ _ _ st hst ?_
  intro p hp c hc
  exact mem_clean_text (split_chars (clean_text line) p hp c hc)

/-- The ASCII-text invariant holds along a whole run. -/
theorem foldl_processLine_ascii (annot : Str → Annot) (rng : ℕ → ℚ)
    (lines : List Str) :
    ∀ st : SpeakerManager × Option Str,
    (∀ e ∈ st.1.superbook, ∀ c ∈ e.text, c.toNat ≤ 0x7F) →
    ∀ e ∈ (lines.foldl (processLine annot rng) st).1.superbook,
      ∀ c ∈ e.text, c.toNat ≤ 0x7F := by
  induction lines with
  | nil => intro st hst; exact hst
  | cons l rest ih =>
    intro st hst
    rw [List.foldl_cons]
    exact ih _ (processLine_ascii annot rng st l hst)

/-- A line without ASCII double quotes is scanned as one narration run. -/
theorem scanSeg_no_quote_line (cs : Str) : '"' ∉ cs →
    ∀ (inDlg : Bool) (acc : Str),
    scanSeg inDlg acc cs = [(false, acc.reverse ++ cs)] := by
  induction cs with
  | nil => intro _ inDlg acc; simp [scanSeg]
  | cons d rest ih =>
    intro h inDlg acc
    have hd : ¬ d = '"' := by
      intro hdd
      exact h (by rw [hdd]; exact List.mem_cons_self _ _)
    rw [scanSeg, if_neg hd, ih (fun hq => h (List.mem_cons_of_mem d hq)) inDlg
      (d :: acc)]
    simp

/-- A line without ASCII double quotes is classified entirely as
narration. -/
theorem split_narration_only (cs : Str) (h : '"' ∉ cs) :
    ∀ s ∈ split_narration_dialogue cs, s.isDialogue = false := by
  intro s hs
  rw [split_narration_dialogue, scanSeg_no_quote_line cs h false []] at hs
  rw [List.filterMap_cons] at hs
  split at hs
  · simp at hs
  · rename_i b heq
    rw [List.filterMap_nil, List.mem_singleton] at hs
    rw [hs]
    split at heq
    · exact Option.noConfusion heq
    · rw [← Option.some_inj.mp heq]

/-- A list of narration segments only appends Narrator entries. -/
theorem foldl_processPart_narration (rng : ℕ → ℚ) (named : Option Str)
    (gender : Str) (parts : List Seg) :
    ∀ st : SpeakerManager × Option Str,
    (∀ p ∈ parts, p.isDialogue = false) →
    ∀ e ∈ (parts.foldl (processPart rng named gender) st).1.superbook,
      e ∈ st.1.superbook ∨ e.speaker = "Narrator".data := by
  induction parts with
  | nil => intro st _ e he; exact Or.inl he
  | cons p rest ih =>
    intro st hparts e he
    rw [List.foldl_cons] at he
    rcases ih _ (fun q hq => hparts q (List.mem_cons_of_mem p hq)) e he with
      h2 | h2
    · have hp : p.isDialogue = false := hparts p (List.mem_cons_self p rest)
      have hps : p = ⟨false, p.text⟩ := by
        cases p with
        | mk d t => simp only [] at hp ⊢; rw [hp]
      rw [hps, processPart_narration_superbook] at h2
      rcases List.mem_append.mp h2 with h3 | h3
      · exact Or.inl h3
      · rw [List.mem_singleton] at h3
        rw [h3]
        exact Or.inr rfl
    · exact Or.inr h2

/-- Claim C10: non-ASCII characters are stripped by `clean_text` before
segmentation and attribution, so every script entry's text is pure ASCII;
and a line whose only quotation marks are non-ASCII (for example
typographic curly quotes) contains no ASCII double quote, hence is
segmented without any dialogue span and contributes only Narrator
entries. -/
theorem clean_text_ascii_pipeline :
    (∀ (lines : List Str) (annot : Str → Annot) (rng : ℕ → ℚ),
      ∀ e ∈ (process_text_lines lines annot rng).1.superbook,
        ∀ c ∈ e.text, c.toNat ≤ 0x7F) ∧
    (∀ (annot : Str → Annot) (rng : ℕ → ℚ)
      (st : SpeakerManager × Option Str) (line : Str), '"' ∉ line →
      ∀ e ∈ (processLine annot rng st line).1.superbook,
        e ∈ st.1.superbook ∨ e.speaker = "Narrator".data) := by
  constructor
  · intro lines annot rng
    exact foldl_processLine_ascii annot rng lines (initManager, none)
      (by simp [initManager])
  · intro annot rng st line h
    have hcl : '"' ∉ clean_text line := by
      intro hq
      exact h (List.mem_of_mem_filter hq)
    rw [processLine]
    exact foldl_processPart_narration _ _ _ _ st
      (split_narration_only _ hcl)

/-- Witness for C10: a line quoted with curly quotes only; its single entry
is ASCII and is credited to the Narrator. -/
theorem clean_text_ascii_pipeline_witness :
    ('h'.toNat ≤ 0x7F) ∧
    ((⟨"Narrator".data, "hi".data⟩ : Entry) ∈
        (initManager, (none : Option Str)).1.superbook ∨
      (⟨"Narrator".data, "hi".data⟩ : Entry).speaker = "Narrator".data) := by
  constructor
  · exact clean_text_ascii_pipeline.1 ["“hi”".data] annotNone rngOne
      ⟨"Narrator".data, "hi".data⟩ (by decide) 'h' (by decide)
  · exact clean_text_ascii_pipeline.2 annotNone rngOne (initManager, none)
      "“hi”".data (by decide) ⟨"Narrator".data, "hi".data⟩ (by decide)

/-! Decimal rendering and lexicographic-order lemmas. -/

/-- The fuel does not matter once it exceeds the argument. -/
theorem pyStrAux_congr : ∀ (f1 : ℕ) (n f2 : ℕ), n < f1 → n < f2 →
    pyStrAux f1 n = pyStrAux f2 n := by
  intro f1
  induction f1 with
  | zero => intro n f2 h1 _; exact absurd h1 (Nat.not_lt_zero n)
  | succ g1 ih =>
    intro n f2 h1 h2
    cases f2 with
    | zero => exact absurd h2 (Nat.not_lt_zero n)
    | succ g2 =>
      rw [pyStrAux, pyStrAux]
      by_cases hn : n < 10
      · rw [if_pos hn, if_pos hn]
      · rw [if_neg hn, if_neg hn]
        have hdiv : n / 10 < n := Nat.div_lt_self (by omega) (by omega)
        rw [ih (n / 10) g2 (by omega) (by omega)]

/-- Unfolding equation of the decimal rendering. -/
theorem pyStr_eq (n : ℕ) : pyStr n =
    if n < 10 then [Nat.digitChar n]
    else pyStr (n / 10) ++ [Nat.digitChar (n % 10)] := by
  rw [pyStr, pyStrAux]
  by_cases hn : n < 10
  · rw [if_pos hn, if_pos hn]
  · rw [if_neg hn, if_neg hn]
    have hdiv : n / 10 < n := Nat.div_lt_self (by omega) (by omega)
    rw [pyStr, pyStrAux_congr n (n / 10) (n / 10 + 1) (by omega) (by omega)]

/-- Decimal renderings are non-empty. -/
theorem pyStr_length_pos (n : ℕ) : 0 < (pyStr n).length := by
  rw [pyStr_eq]
  split <;> simp

/-- The decimal rendering length is monotone. -/
theorem pyStr_len_mono : ∀ (n m : ℕ), m ≤ n →
    (pyStr m).length ≤ (pyStr n).length := by
  intro n
  induction n using Nat.strong_induction_on with
  | _ n ih =>
    intro m hmn
    by_cases hn : n < 10
    · have hm : m < 10 := lt_of_le_of_lt hmn hn
      rw [pyStr_eq n, pyStr_eq m, if_pos hn, if_pos hm]
      simp
    · by_cases hm : m < 10
      · rw [pyStr_eq m, if_pos hm]
        have := pyStr_length_pos n
        simpa using this
      · rw [pyStr_eq n, pyStr_eq m, if_neg hn, if_neg hm]
        simp only [List.length_append, List.length_cons, List.length_nil]
        have hd : n / 10 < n := Nat.div_lt_self (by omega) (by omega)
        have := ih (n / 10) hd (m / 10) (Nat.div_le_div_right hmn)
        omega

/-- Every natural is below ten to the power of its digit count. -/
theorem pyStr_lt_pow : ∀ n : ℕ, n < 10 ^ (pyStr n).length := by
  intro n
  induction n using Nat.strong_induction_on with
  | _ n ih =>
    by_cases hn : n < 10
    · rw [pyStr_eq, if_pos hn]
      simpa using hn
    · rw [pyStr_eq, if_neg hn]
      simp only [List.length_append, List.length_cons, List.length_nil]
      have hd : n / 10 < n := Nat.div_lt_self (by omega) (by omega)
      have h1 := ih (n / 10) hd
      rw [pow_succ]
      set K := 10 ^ (pyStr (n / 10)).length with hK
      omega

/-- The fixed-width representation has the prescribed width. -/
theorem fixedRep_length : ∀ (w n : ℕ), (fixedRep w n).length = w := by
  intro w
  induction w with
  | zero => intro n; rfl
  | succ v ih =>
    intro n
    rw [fixedRep]
    simp [ih]

/-- The fixed-width representation of zero is all zeros. -/
theorem fixedRep_zero : ∀ w : ℕ, fixedRep w 0 = List.replicate w '0' := by
  intro w
  induction w with
  | zero => rfl
  | succ v ih =>
    rw [fixedRep, Nat.zero_div, Nat.zero_mod, ih, List.replicate_succ' v '0']
    rfl

/-- Zero-filling the decimal rendering gives the fixed-width
representation. -/
theorem zfill_pyStr_eq_fixedRep : ∀ (w n : ℕ), (pyStr n).length ≤ w →
    zfill w (pyStr n) = fixedRep w n := by
  intro w
  induction w with
  | zero =>
    intro n h
    exact absurd (lt_of_lt_of_le (pyStr_length_pos n) h) (by omega)
  | succ v ih =>
    intro n h
    by_cases hn : n < 10
    · rw [pyStr_eq, if_pos hn, fixedRep, Nat.div_eq_of_lt hn,
        Nat.mod_eq_of_lt hn, fixedRep_zero, zfill]
      simp
    · rw [pyStr_eq, if_neg hn] at h ⊢
      simp only [List.length_append, List.length_cons, List.length_nil] at h
      have hlen : (pyStr (n / 10)).length ≤ v := by omega
      rw [zfill, fixedRep, ← ih (n / 10) hlen, zfill]
      simp only [List.length_append, List.length_cons, List.length_nil]
      rw [show v + 1 - ((pyStr (n / 10)).length + (0 + 1)) =
        v - (pyStr (n / 10)).length by omega]
      rw [← List.append_assoc]

/-- Decimal digits compare like their values. -/
theorem digitChar_lt : ∀ a < 10, ∀ b < 10, a < b →
    Nat.digitChar a < Nat.digitChar b := by decide

/-- A strict lexicographic comparison decided within a common-length prefix
is unaffected by suffixes. -/
theorem lexLt_append_left : ∀ (a b x y : Str), a.length = b.length →
    lexLt a b = true → lexLt (a ++ x) (b ++ y) = true := by
  intro a
  induction a with
  | nil =>
    intro b x y hlen hab
    cases b with
    | nil => exact absurd hab (by rw [lexLt]; simp)
    | cons d bs => simp at hlen
  | cons c as ih =>
    intro b x y hlen hab
    cases b with
    | nil => simp at hlen
    | cons d bs =>
      rw [List.cons_append, List.cons_append]
      rw [lexLt] at hab ⊢
      by_cases h1 : c < d
      · rw [if_pos h1]
      · rw [if_neg h1] at hab ⊢
        by_cases h2 : c = d
        · rw [if_pos h2] at hab ⊢
          exact ih bs x y (by simpa using hlen) hab
        · rw [if_neg h2] at hab
          exact absurd hab (by simp)

/-- A strict lexicographic comparison after a common prefix. -/
theorem lexLt_append_same : ∀ (p x y : Str), lexLt x y = true →
    lexLt (p ++ x) (p ++ y) = true := by
  intro p
  induction p with
  | nil => intro x y h; exact h
  | cons c ps ih =>
    intro x y h
    rw [List.cons_append, List.cons_append, lexLt, if_neg (lt_irrefl c),
      if_pos rfl]
    exact ih x y h

/-- Single-character lexicographic comparison. -/
theorem lexLt_single (a b : Char) (h : a < b) : lexLt [a] [b] = true := by
  rw [lexLt, if_pos h]

/-- Fixed-width decimal representations compare lexicographically like
their values. -/
theorem fixedRep_lt : ∀ (w i j : ℕ), i < j → j < 10 ^ w →
    lexLt (fixedRep w i) (fixedRep w j) = true := by
  intro w
  induction w with
  | zero => intro i j hij hj; simp at hj; omega
  | succ v ih =>
    intro i j hij hj
    rw [fixedRep, fixedRep]
    have hdiv : i / 10 ≤ j / 10 := Nat.div_le_div_right (le_of_lt hij)
    rcases lt_or_eq_of_le hdiv with hlt | heq
    · have hj10 : j / 10 < 10 ^ v := by
        rw [Nat.div_lt_iff_lt_mul (by norm_num)]
        calc j < 10 ^ (v + 1) := hj
        _ = 10 ^ v * 10 := by ring
      exact lexLt_append_left _ _ _ _
        (by rw [fixedRep_length, fixedRep_length]) (ih (i / 10) (j / 10) hlt hj10)
    · have hmod : i % 10 < j % 10 := by omega
      rw [heq]
      exact lexLt_append_same _ _ _ (lexLt_single _ _
        (digitChar_lt (i % 10) (Nat.mod_lt i (by omega)) (j % 10)
          (Nat.mod_lt j (by omega)) hmod))

/-- Filenames with a common pad width compare like their indices, whatever
the speaker names. -/
theorem fname_lt (w i j : ℕ) (si sj : Str) (hij : i < j)
    (hjlen : (pyStr j).length ≤ w) (hjpow : j < 10 ^ w) :
    lexLt (fname w i si) (fname w j sj) = true := by
  rw [fname, fname]
  have hilen : (pyStr i).length ≤ w :=
    le_trans (pyStr_len_mono j i (le_of_lt hij)) hjlen
  rw [zfill_pyStr_eq_fixedRep w i hilen, zfill_pyStr_eq_fixedRep w j hjlen]
  exact lexLt_append_left _ _ _ _
    (by rw [fixedRep_length, fixedRep_length]) (fixedRep_lt w i j hij hjpow)

/-- Bounds and membership for enumerated lists. -/
theorem mem_enumFrom_bounds {α : Type} (l : List α) : ∀ (m : ℕ) (p : ℕ × α),
    p ∈ List.enumFrom m l → m ≤ p.1 ∧ p.1 < m + l.length ∧ p.2 ∈ l := by
  induction l with
  | nil => intro m p hp; simp [List.enumFrom] at hp
  | cons x xs ih =>
    intro m p hp
    rw [List.enumFrom] at hp
    rcases List.mem_cons.mp hp with h | h
    · rw [h]
      exact ⟨le_refl m, by simp, List.mem_cons_self x xs⟩
    · obtain ⟨h1, h2, h3⟩ := ih (m + 1) p h
      exact ⟨by omega, by simp only [List.length_cons]; omega,
        List.mem_cons_of_mem x h3⟩

/-- Enumeration indices are strictly increasing. -/
theorem pairwise_enumFrom_fst {α : Type} (l : List α) : ∀ m : ℕ,
    (List.enumFrom m l).Pairwise (fun p q => p.1 < q.1) := by
  induction l with
  | nil => intro m; simp [List.enumFrom]
  | cons x xs ih =>
    intro m
    rw [List.enumFrom]
    refine List.Pairwise.cons ?_ (ih (m + 1))
    intro q hq
    have h := (mem_enumFrom_bounds xs (m + 1) q hq).1
    simp only []
    omega

/-- When every script speaker is registered, the skip branch never fires
and the generated filename list is total. -/
theorem filterMap_fname_eq (sm : SpeakerManager) (w : ℕ)
    (l : List (ℕ × Entry))
    (hl : ∀ p ∈ l, (get_speaker sm p.2.speaker).isSome = true) :
    (l.filterMap fun p =>
      if (get_speaker sm p.2.speaker).isSome then
        some (fname w (p.1 + 1) p.2.speaker)
      else none) = l.map (fun p => fname w (p.1 + 1) p.2.speaker) := by
  induction l with
  | nil => rfl
  | cons p rest ih =>
    rw [List.filterMap_cons, List.map_cons]
    rw [if_pos (hl p (List.mem_cons_self p rest))]
    rw [ih (fun q hq => hl q (List.mem_cons_of_mem p hq))]

/-- Claim C1 (amended): when every script speaker is registered, each
strategy writes exactly one file per entry, named by the 1-based
enumeration position, an underscore, the speaker name and ".wav"; the
sequential strategy zero-pads the position to the width of the total entry
count while the concurrent strategy zero-pads to the fixed width 2, so the
two filename lists coincide exactly when the entry count has two decimal
digits; ascending filename order reproduces script order in the sequential
strategy always, and in the concurrent strategy when at most 99 entries
exist. -/
theorem generate_filenames_both_paths (sm : SpeakerManager)
    (h : ∀ e ∈ sm.superbook, (get_speaker sm e.speaker).isSome = true) :
    generate_audio_with_librosa_single_thread sm =
      sm.superbook.enum.map (fun p =>
        fname (pyStr sm.superbook.length).length (p.1 + 1) p.2.speaker) ∧
    generate_audio_with_librosa_multithreading sm =
      sm.superbook.enum.map (fun p => fname 2 (p.1 + 1) p.2.speaker) ∧
    ((pyStr sm.superbook.length).length = 2 →
      generate_audio_with_librosa_single_thread sm =
        generate_audio_with_librosa_multithreading sm) ∧
    (generate_audio_with_librosa_single_thread sm).Pairwise
      (fun a b => lexLt a b = true) ∧
    (sm.superbook.length ≤ 99 →
      (generate_audio_with_librosa_multithreading sm).Pairwise
        (fun a b => lexLt a b = true)) := by
  have hl : ∀ p ∈ sm.superbook.enum,
      (get_speaker sm p.2.speaker).isSome = true := by
    intro p hp
    exact h p.2 (mem_enumFrom_bounds sm.superbook 0 p hp).2.2
  have e1 : generate_audio_with_librosa_single_thread sm =
      sm.superbook.enum.map (fun p =>
        fname (pyStr sm.superbook.length).length (p.1 + 1) p.2.speaker) := by
    rw [generate_audio_with_librosa_single_thread]
    exact filterMap_fname_eq sm _ _ hl
  have e2 : generate_audio_with_librosa_multithreading sm =
      sm.superbook.enum.map (fun p => fname 2 (p.1 + 1) p.2.speaker) := by
    rw [generate_audio_with_librosa_multithreading]
    exact filterMap_fname_eq sm 2 _ hl
  have hpw : ∀ (w : ℕ), (∀ p ∈ sm.superbook.enum,
        (pyStr (p.1 + 1)).length ≤ w ∧ p.1 + 1 < 10 ^ w) →
      (sm.superbook.enum.map (fun p => fname w (p.1 + 1) p.2.speaker)).Pairwise
        (fun a b => lexLt a b = true) := by
    intro w hw
    rw [List.pairwise_map]
    refine (pairwise_enumFrom_fst sm.superbook 0).imp_of_mem ?_
    intro p q hp hq hpq
    exact fname_lt w (p.1 + 1) (q.1 + 1) p.2.speaker q.2.speaker
      (by omega) (hw q hq).1 (hw q hq).2
  refine ⟨e1, e2, ?_, ?_, ?_⟩
  · intro hnd
    rw [e1, e2, hnd]
  · rw [e1]
    refine hpw _ ?_
    intro p hp
    have hb := (mem_enumFrom_bounds sm.superbook 0 p hp).2.1
    have hle : p.1 + 1 ≤ sm.superbook.length := by omega
    constructor
    · exact le_trans (pyStr_len_mono sm.superbook.length (p.1 + 1) hle)
        (le_refl _)
    · exact lt_of_le_of_lt hle (pyStr_lt_pow sm.superbook.length)
  · intro h99
    rw [e2]
    refine hpw 2 ?_
    intro p hp
    have hb := (mem_enumFrom_bounds sm.superbook 0 p hp).2.1
    have hle : p.1 + 1 ≤ 99 := by omega
    constructor
    · have := pyStr_len_mono 99 (p.1 + 1) hle
      simpa [show (pyStr 99).length = 2 by decide] using this
    · omega

/-- Counterexample to claim C1 as stated: with a single entry the
sequential strategy writes `1_Narrator.wav` (padded to the width of the
entry count, which is 1, and 1-based — not the 0-based sequence index),
while the concurrent strategy writes `01_Narrator.wav` (fixed `zfill(2)`),
so the two strategies do not produce the same set of output files. -/
theorem filenames_not_identical_cex :
    generate_audio_with_librosa_single_thread smOne = ["1_Narrator.wav".data] ∧
    generate_audio_with_librosa_multithreading smOne =
      ["01_Narrator.wav".data] ∧
    generate_audio_with_librosa_single_thread smOne ≠
      generate_audio_with_librosa_multithreading smOne := by decide

/-- Witness for C1 amended: the sequential filenames of a two-entry script,
via the closed form of the theorem. -/
theorem generate_filenames_both_paths_witness :
    generate_audio_with_librosa_single_thread smTwo =
      ["1_Narrator.wav".data, "2_Narrator.wav".data] :=
  (generate_filenames_both_paths smTwo (by decide)).1.trans (by decide)
